import Mathlib

/-!
Shallow embedding of the openGA genetic-algorithm engine
(src/Matrix.hpp and the openGA.hpp header embedded in the repository)
together with proofs about the claims of the specification.

Modelling conventions:
* C++ `double` values are modelled as exact rationals (ℚ) wherever the code
  only adds, subtracts, divides and compares them; the selection-chance
  table, whose construction uses `sqrt`, is modelled over ℝ with `Real.sqrt`.
* C++ `std::vector` becomes `List`; indexed reads `v[i]` become `List.getD i 0`
  (out-of-range reads are undefined behaviour in the C++ release build; the
  total model returns the default and each theorem keeps indices in range).
* functions that `throw` are modelled as `Except String` with the exact
  message thrown by the source.
-/

namespace EA

/-! ### The dense 2-D array (src/Matrix.hpp) -/

/-- Model of `EA::Matrix<T>` (Matrix.hpp): row-major storage with explicit
row/column counts.  Element type is ℚ (the engine instantiates `double`). -/
structure Matrix where
  n_rows : ℕ
  n_cols : ℕ
  data : List ℚ
deriving DecidableEq

/-- Matrix.hpp `empty()`: `return data.empty();`. -/
def Matrix.empty (m : Matrix) : Bool := m.data.isEmpty

/-- Matrix.hpp `get_n_rows()`. -/
def Matrix.get_n_rows (m : Matrix) : ℕ := m.n_rows

/-- Matrix.hpp `get_n_cols()`. -/
def Matrix.get_n_cols (m : Matrix) : ℕ := m.n_cols

/-- Matrix.hpp `operator()(row, col)`: `data[row * n_cols + col]`. -/
def Matrix.at (m : Matrix) (row col : ℕ) : ℚ := m.data.getD (row * m.n_cols + col) 0

/-- Matrix.hpp `print()` (lines 81-88): streams every element to `cout`
and then executes `data.clear()`.  The model returns the printed rows
(standing for the stream output) together with the matrix as it is left
behind: `n_rows` and `n_cols` are untouched, `data` is cleared. -/
def Matrix.print (m : Matrix) : List (List ℚ) × Matrix :=
  ((List.range m.n_rows).map fun i => (List.range m.n_cols).map fun j => m.at i j,
   { m with data := [] })

/-! ### Pareto dominance (openGA.hpp, `dominates`) -/

/-- openGA.hpp `dominates(a, b)`: throws on a length mismatch of the
objective vectors; otherwise returns `false` as soon as some component of
`a` strictly exceeds the matching component of `b`, and then returns
whether some component of `a` is strictly below the matching component
of `b`. -/
def dominates (a b : List ℚ) : Except String Bool :=
  if a.length ≠ b.length then .error "vector size mismatch A73592753!"
  else if (List.range a.length).any (fun i => decide (b.getD i 0 < a.getD i 0)) then .ok false
  else .ok ((List.range a.length).any (fun i => decide (a.getD i 0 < b.getD i 0)))

/-! ### Das-Dennis reference vectors (openGA.hpp) -/

/-- openGA.hpp `generate_integerReferenceVectors(dept, N_division)`:
throws "wrong vector dept!" for `dept < 1`; for `dept == 1` returns the
single row `[N_division]`; otherwise, for each first coordinate
`i ∈ [0, N_division]`, prepends `i` to every vector produced for
`(dept - 1, N_division - i)`. -/
def generate_integerReferenceVectors : ℕ → ℕ → Except String (List (List ℚ))
  | 0, _ => .error "wrong vector dept!"
  | 1, nd => .ok [[(nd : ℚ)]]
  | dept + 2, nd =>
    .ok ((List.range (nd + 1)).flatMap fun i =>
      (match generate_integerReferenceVectors (dept + 1) (nd - i) with
       | .ok tail => tail
       | .error _ => []).map fun v => ((i : ℕ) : ℚ) :: v)

/-- openGA.hpp `generate_referenceVectors(dept, N_division)`: the integer
lattice rows with every component divided by `N_division`.  The rows are
rectangular, so the `Matrix` assignment in the source is the identity on
the row list and the result is modelled as the list of matrix rows. -/
def generate_referenceVectors (dept nd : ℕ) : Except String (List (List ℚ)) :=
  match generate_integerReferenceVectors dept nd with
  | .error e => .error e
  | .ok rows => .ok (rows.map fun row => row.map fun x => x / (nd : ℚ))

/-! ### Selection chances (openGA.hpp, `generate_selection_chance`) -/

/-- The running accumulation used by `generate_selection_chance`: starting
from `acc`, push `acc + w` for every weight `w` in turn. -/
def cumulative {K : Type*} [AddCommMonoid K] : K → List K → List K
  | _, [] => []
  | acc, w :: ws => (acc + w) :: cumulative (acc + w) ws

/-- The per-chromosome increment `1.0 / sqrt(double(rank[i] + 1))` of
`generate_selection_chance`. -/
noncomputable def selection_chance_weight (rank : ℕ) : ℝ :=
  1 / Real.sqrt ((rank : ℝ) + 1)

/-- openGA.hpp `generate_selection_chance(gen, rank)`: accumulate the
rank weights over the chromosomes in order, then run the in-place
normalization loop
`for i in [0, N): scc[i] = scc[i] / scc[population - 1]`.
The divisor cell is re-read on every iteration, so it is overwritten to 1
at `i = population - 1` and every later entry (any index at or beyond
`population`) is divided by 1, i.e. left at its raw cumulative value. -/
noncomputable def generate_selection_chance (ranks : List ℕ) (population : ℕ) : List ℝ :=
  (List.range ranks.length).foldl
    (fun cur i => cur.set i (cur.getD i 0 / cur.getD (population - 1) 0))
    (cumulative 0 (ranks.map selection_chance_weight))

/-! ### Parent selection (openGA.hpp, `select_parent`) -/

/-- The scanning loop of `select_parent`:
`while (position < N_max && scc[position] < r) position++`, written with
the remaining distance `N_max - position` as a structural argument, so that
`fuel = 0` is exactly the exit condition `position >= N_max`. -/
def select_parent_loop {K : Type*} [LinearOrderedField K] (scc : List K) (r : K) :
    ℕ → ℕ → ℕ
  | 0, pos => pos
  | fuel + 1, pos =>
    if scc.getD pos 0 < r then select_parent_loop scc r fuel (pos + 1) else pos

/-- openGA.hpp `select_parent(g)` as a function of the drawn `r`:
`N_max` is the chromosome count of the generation and `scc` its
`selection_chance_cumulative` table. -/
def select_parent {K : Type*} [LinearOrderedField K] (N_max : ℕ) (scc : List K) (r : K) : ℕ :=
  select_parent_loop scc r N_max 0

/-! ### Single-objective selection (openGA.hpp, `select_population_SO`) -/

/-- One `do ... while (!allowed)` round of `select_population_SO`: draw
`j = select_parent(g)` from the next random number, retry while `j` equals
one of the `blocked` entries, and return the accepted `j` together with the
remaining draws (`none` when the supplied draw stream runs out). -/
def sample_one (g_size : ℕ) (scc : List ℚ) (blocked : List ℕ) :
    List ℚ → Option (ℕ × List ℚ)
  | [] => none
  | r :: rest =>
    if select_parent g_size scc r ∈ blocked then sample_one g_size scc blocked rest
    else some (select_parent g_size scc r, rest)

/-- The sampling loop of `select_population_SO` for the `population -
elite_count` non-elite slots.  After accepting `j`, the source pushes
chromosome `j` into the selected generation but records
`g.sorted_indices[j]` — not `j` — in `blocked`. -/
def sample_loop (sorted_indices : List ℕ) (scc : List ℚ) (g_size : ℕ) :
    ℕ → List ℕ → List ℕ → List ℚ → Option (List ℕ)
  | 0, _, acc, _ => some acc
  | n + 1, blocked, acc, draws =>
    match sample_one g_size scc blocked draws with
    | none => none
    | some (j, rest) =>
      sample_loop sorted_indices scc g_size n
        (blocked ++ [sorted_indices.getD j 0]) (acc ++ [j]) rest

/-- openGA.hpp `select_population_SO(g, g2)` for `generation_step ≥ 1`,
returning the list of chromosome indices of `g` pushed into `g2`: first the
`elite_count` elites `g.sorted_indices[0..E)` (which are also recorded in
`blocked`), then `population - elite_count` sampled indices. -/
def select_population_SO (sorted_indices : List ℕ) (scc : List ℚ) (g_size : ℕ)
    (elite_count population : ℕ) (draws : List ℚ) : Option (List ℕ) :=
  sample_loop sorted_indices scc g_size (population - elite_count)
    (sorted_indices.take elite_count) (sorted_indices.take elite_count) draws

/-! ### NSGA-III niching pick (openGA.hpp, `select_population_MO`) -/

/-- The scan of the `niche_count[min_niche_index] == 0` branch of
`select_population_MO` (lines 703-710): starting from
`next_member_index = 0` and `min_val = distances(min_vec_neighbors[0], j*)`,
iterate over the members `i` of `min_vec_neighbors` and record `i` itself
(not its position) whenever `distances(i, j*) < min_val`. -/
def niche_minimum_scan (dist : ℕ → ℚ) (neighbors : List ℕ) : ℕ × ℚ :=
  neighbors.foldl (fun acc i => if dist i < acc.2 then (i, dist i) else acc)
    (0, dist (neighbors.getD 0 0))

/-- The chromosome actually added by that branch:
`to_add_index = min_vec_neighbors[next_member_index]` (line 716), i.e. the
scan result is used as a position into `min_vec_neighbors`. -/
def niche_next_member (dist : ℕ → ℚ) (neighbors : List ℕ) : ℕ :=
  neighbors.getD (niche_minimum_scan dist neighbors).1 0

/-- Modelled from the claim: the member of the neighbor set with minimum
perpendicular distance, taking the first encountered on ties. -/
def claimed_min_distance_member (dist : ℕ → ℚ) (neighbors : List ℕ) : ℕ :=
  match neighbors with
  | [] => 0
  | h :: t => t.foldl (fun best i => if dist i < dist best then i else best) h

/-- Concrete distance table for the C5 failing input: chromosome 0 lies at
distance 1 from the reference vector, chromosome 1 at distance 2. -/
def exampleNicheDist : ℕ → ℚ := fun i => if i = 0 then 1 else 2

/-! ### Stop criteria (openGA.hpp, `stop_critera`) -/

/-- openGA.hpp `enum class StopReason`. -/
inductive StopReason where
  | Undefined
  | MaxGenerations
  | StallAverage
  | StallBest
  | UserRequest
deriving DecidableEq

/-- openGA.hpp `enum class GaMode`. -/
inductive GaMode where
  | SOGA
  | IGA
  | NSGA_III
deriving DecidableEq

/-- openGA.hpp `is_single_objective()`. -/
def is_single_objective : GaMode → Bool
  | .SOGA => true
  | .IGA => true
  | .NSGA_III => false

/-- openGA.hpp `is_interactive()`. -/
def is_interactive : GaMode → Bool
  | .SOGA => false
  | .IGA => true
  | .NSGA_III => false

/-- openGA.hpp `GenerationTypeSOAbstract`: the two scalars kept per past
generation for stall detection. -/
structure GenerationTypeSOAbstract where
  best_total_cost : ℚ
  average_cost : ℚ
deriving DecidableEq

instance : Inhabited GenerationTypeSOAbstract := ⟨⟨0, 0⟩⟩

/-- openGA.hpp `stop_critera()` as a function of the engine state it reads:
the mode flag, the cooperative stop flag, the step counters and bounds, the
tolerances, the retained history `generations_so_abs` and the two stall
counters.  It returns the updated stall counters together with the
`StopReason`.  Reading the last two history entries requires at least two
entries (out-of-range access is undefined behaviour in the source; the model
uses the defaulted read). -/
def stop_critera (single_objective user_request_stop : Bool)
    (generation_step generation_max best_stall_max average_stall_max : ℤ)
    (tol_stall_best tol_stall_average : ℚ)
    (generations_so_abs : List GenerationTypeSOAbstract)
    (best_stall_count average_stall_count : ℤ) : ℤ × ℤ × StopReason :=
  if generation_step < 2 ∧ user_request_stop = false then
    (best_stall_count, average_stall_count, .Undefined)
  else
    let g1 := generations_so_abs.getD (generations_so_abs.length - 2) default
    let g2 := generations_so_abs.getD (generations_so_abs.length - 1) default
    let b := if single_objective then
        (if |g1.best_total_cost - g2.best_total_cost| < tol_stall_best then
          best_stall_count + 1 else 0)
      else best_stall_count
    let a := if single_objective then
        (if |g1.average_cost - g2.average_cost| < tol_stall_average then
          average_stall_count + 1 else 0)
      else average_stall_count
    if generation_max ≤ generation_step then (b, a, .MaxGenerations)
    else if average_stall_max ≤ a then (b, a, .StallAverage)
    else if best_stall_max ≤ b then (b, a, .StallBest)
    else if user_request_stop then (b, a, .UserRequest)
    else (b, a, .Undefined)

/-- Modelled from the claim: at every generation step the stall counters are
updated first and then the first applicable reason of `MaxGenerations`,
`StallAverage`, `StallBest`, `UserRequest`, `Undefined` is returned, in that
order, with no early return at small step counts. -/
def stop_criteria_claimed (single_objective user_request_stop : Bool)
    (generation_step generation_max best_stall_max average_stall_max : ℤ)
    (tol_stall_best tol_stall_average : ℚ)
    (generations_so_abs : List GenerationTypeSOAbstract)
    (best_stall_count average_stall_count : ℤ) : ℤ × ℤ × StopReason :=
  let g1 := generations_so_abs.getD (generations_so_abs.length - 2) default
  let g2 := generations_so_abs.getD (generations_so_abs.length - 1) default
  let b := if single_objective then
      (if |g1.best_total_cost - g2.best_total_cost| < tol_stall_best then
        best_stall_count + 1 else 0)
    else best_stall_count
  let a := if single_objective then
      (if |g1.average_cost - g2.average_cost| < tol_stall_average then
        average_stall_count + 1 else 0)
    else average_stall_count
  if generation_max ≤ generation_step then (b, a, .MaxGenerations)
  else if average_stall_max ≤ a then (b, a, .StallAverage)
  else if best_stall_max ≤ b then (b, a, .StallBest)
  else if user_request_stop then (b, a, .UserRequest)
  else (b, a, .Undefined)

/-! ### Configuration validation (openGA.hpp, `check_settings`,
`crossover_and_mutation`, `solve_init`) -/

/-- The engine configuration read by `check_settings` and
`crossover_and_mutation`.  Each `std::function` member is modelled by a
`Bool` that is `true` exactly when the callback is set (non-null). -/
structure GAConfig where
  problem_mode : GaMode
  population : ℕ
  crossover_fraction : ℚ
  mutation_rate : ℚ
  elite_count : ℤ
  N_threads : ℤ
  user_request_stop : Bool
  calculate_IGA_total_fitness : Bool
  calculate_SO_total_fitness : Bool
  calculate_MO_objectives : Bool
  distribution_objective_reductions : Bool
  init_genes : Bool
  eval_solution : Bool
  eval_solution_IGA : Bool
  mutate : Bool
  crossover : Bool
  SO_report_generation : Bool
  MO_report_generation : Bool

/-- The mode-independent tail of `check_settings` (from the `init_genes`
check onward). -/
def check_settings_common (c : GAConfig) : Except String Unit :=
  if c.init_genes = false then .error "init_genes is not adjusted."
  else if c.mutate = false then .error "mutate is not adjusted."
  else if c.crossover = false then .error "crossover is not adjusted."
  else if c.N_threads < 1 then .error "Number of threads is below 1."
  else if c.population < 1 then .error "population is below 1."
  else if is_single_objective c.problem_mode then
    (if c.SO_report_generation = false then
      .error "SO_report_generation is not adjusted while problem mode is single-objective"
    else if c.MO_report_generation then
      .error "MO_report_generation is adjusted while problem mode is single-objective"
    else .ok ())
  else
    (if c.SO_report_generation then
      .error "SO_report_generation is adjusted while problem mode is multi-objective"
    else if c.MO_report_generation = false then
      .error "MO_report_generation is not adjusted while problem mode is multi-objective"
    else .ok ())

/-- openGA.hpp `check_settings()`: the callback/mode cross-checks in source
order, each raising the exact message of the corresponding `throw`. -/
def check_settings (c : GAConfig) : Except String Unit :=
  if is_interactive c.problem_mode then
    if c.calculate_IGA_total_fitness = false then
      .error "calculate_IGA_total_fitness is null in interactive mode!"
    else if c.calculate_SO_total_fitness then
      .error "calculate_SO_total_fitness is not null in interactive mode!"
    else if c.calculate_MO_objectives then
      .error "calculate_MO_objectives is not null in interactive mode!"
    else if c.distribution_objective_reductions then
      .error "distribution_objective_reductions is not null in interactive mode!"
    else if c.MO_report_generation then
      .error "MO_report_generation is not null in interactive mode!"
    else if c.eval_solution_IGA = false then
      .error "eval_solution_IGA is null in interactive mode!"
    else if c.eval_solution then
      .error "eval_solution is not null in interactive mode (use eval_solution_IGA instead)!"
    else check_settings_common c
  else
    if c.calculate_IGA_total_fitness then
      .error "calculate_IGA_total_fitness is not null in non-interactive mode!"
    else if c.eval_solution_IGA then
      .error "eval_solution_IGA is not null in non-interactive mode!"
    else if c.eval_solution = false then .error "eval_solution is null!"
    else if is_single_objective c.problem_mode then
      (if c.calculate_SO_total_fitness = false then
        .error "calculate_SO_total_fitness is null in single objective mode!"
      else if c.calculate_MO_objectives then
        .error "calculate_MO_objectives is not null in single objective mode!"
      else if c.distribution_objective_reductions then
        .error "distribution_objective_reductions is not null in single objective mode!"
      else if c.MO_report_generation then
        .error "MO_report_generation is not null in single objective mode!"
      else check_settings_common c)
    else
      (if c.calculate_SO_total_fitness then
        .error "calculate_SO_total_fitness is no null in multi-objective mode!"
      else if c.calculate_MO_objectives = false then
        .error "calculate_MO_objectives is null in multi-objective mode!"
      else if c.MO_report_generation = false then
        .error "MO_report_generation is null in multi-objective mode!"
      else check_settings_common c)

/-- C++ `std::round` on the exact rationals: round half away from zero. -/
def cppRound (q : ℚ) : ℤ := if 0 ≤ q then ⌊q + 1 / 2⌋ else ⌈q - 1 / 2⌉

/-- The validation prefix of openGA.hpp `crossover_and_mutation(...)`
(everything the function executes before dispatching the variation work):
early return on `user_request_stop`, the `crossover_fraction` and
`mutation_rate` range checks, the `generation_step <= 0` early return, and
the IGA `N_add + elite_count != population` check. -/
def crossover_and_mutation_check (c : GAConfig) (generation_step : ℤ) : Except String Unit :=
  if c.user_request_stop then .ok ()
  else if c.crossover_fraction ≤ 0 ∨ 1 < c.crossover_fraction then
    .error "Wrong crossover fractoin"
  else if c.mutation_rate < 0 ∨ 1 < c.mutation_rate then .error "Wrong mutation rate"
  else if generation_step ≤ 0 then .ok ()
  else if is_interactive c.problem_mode ∧
      cppRound ((c.population : ℚ) * c.crossover_fraction) + c.elite_count
        ≠ (c.population : ℤ) then
    .error "In IGA mode, elite fraction + crossover fraction must be equal to 1.0 !"
  else .ok ()

/-- openGA.hpp `solve_init()` at the level of configuration errors and the
history push: it runs `check_settings` first and, unless
`user_request_stop` is set, pushes exactly one entry (generation 0) onto
`generations_so_abs`.  The phases in between (population initialization,
evaluation, ranking, reporting) call only user callbacks and raise no engine
configuration error in single-objective mode; they are elided.  The result
is the number of history entries pushed. -/
def solve_init_pushes (c : GAConfig) : Except String ℕ :=
  match check_settings c with
  | .error e => .error e
  | .ok _ => .ok (if c.user_request_stop then 0 else 1)

/-- A configuration that is valid for `check_settings` in SOGA mode but has
`crossover_fraction = 3/2`, outside the legal range `(0, 1]`. -/
def cfgInvalidCrossover : GAConfig :=
  { problem_mode := .SOGA
    population := 50
    crossover_fraction := 3 / 2
    mutation_rate := 1 / 10
    elite_count := 5
    N_threads := 8
    user_request_stop := false
    calculate_IGA_total_fitness := false
    calculate_SO_total_fitness := true
    calculate_MO_objectives := false
    distribution_objective_reductions := false
    init_genes := true
    eval_solution := true
    eval_solution_IGA := false
    mutate := true
    crossover := true
    SO_report_generation := true
    MO_report_generation := false }

/-! ### Single-objective ranking (openGA.hpp, `quicksort_indices_SO` and
`rank_population_SO`) -/

/-- The three-assignment swap of `quicksort_indices_SO`. -/
def listSwap (l : List ℕ) (i j : ℕ) : List ℕ :=
  (l.set i (l.getD j 0)).set j (l.getD i 0)

/-- The left scan of the partition loop:
`while ((cost[idx[l]] <= x) && (l < right)) l++`. -/
def incrL (c : ℕ → ℚ) (idx : List ℕ) (x : ℚ) (right : ℕ) (l : ℕ) : ℕ :=
  if h : c (idx.getD l 0) ≤ x ∧ l < right then incrL c idx x right (l + 1) else l
termination_by right - l
decreasing_by simp_wf; omega

/-- The right scan of the partition loop:
`while ((cost[idx[r]] > x) && (r >= left)) r--`.  (At `r = 0` a further
decrement is undefined behaviour in the source and never happens in the
calls made by the quicksort, where the pivot at `left` stops the scan.) -/
def decrR (c : ℕ → ℚ) (idx : List ℕ) (x : ℚ) (left : ℕ) : ℕ → ℕ
  | 0 => 0
  | r + 1 =>
    if x < c (idx.getD (r + 1) 0) ∧ left ≤ r + 1 then decrR c idx x left r else r + 1

/-- The `while (l < r)` partition loop of `quicksort_indices_SO`: advance
`l`, retreat `r`, swap when `l < r` still holds, and repeat; the result is
the final `r` (the `middle` of the source) together with the permuted index
array.  `fuel` bounds the number of iterations; the correctness lemmas
show that the fuel supplied by `quicksort_indices_SO` is never exhausted. -/
def partLoop (c : ℕ → ℚ) (x : ℚ) (left right : ℕ) : ℕ → ℕ → ℕ → List ℕ → ℕ × List ℕ
  | 0, _, r, idx => (r, idx)
  | fuel + 1, l, r, idx =>
    if l < r then
      if incrL c idx x right l < decrR c idx x left r then
        partLoop c x left right fuel (incrL c idx x right l) (decrR c idx x left r)
          (listSwap idx (incrL c idx x right l) (decrR c idx x left r))
      else (decrR c idx x left r, idx)
    else (r, idx)

/-- openGA.hpp `quicksort_indices_SO(array_indices, gen, left, right)` with
an explicit recursion-depth fuel: pick the pivot cost at `left`, partition,
swap the pivot to the middle and recurse on both sides. -/
def quicksort_indices_SO_fuel (c : ℕ → ℚ) : ℕ → List ℕ → ℕ → ℕ → List ℕ
  | 0, idx, _, _ => idx
  | fuel + 1, idx, left, right =>
    if left < right then
      quicksort_indices_SO_fuel c fuel
        (quicksort_indices_SO_fuel c fuel
          (listSwap (partLoop c (c (idx.getD left 0)) left right (2 * right + 2)
              left right idx).2
            left
            (partLoop c (c (idx.getD left 0)) left right (2 * right + 2) left right idx).1)
          left
          ((partLoop c (c (idx.getD left 0)) left right (2 * right + 2) left right idx).1 - 1))
        ((partLoop c (c (idx.getD left 0)) left right (2 * right + 2) left right idx).1 + 1)
        right
    else idx

/-- openGA.hpp `quicksort_indices_SO` at the top level; the supplied fuel
covers the recursion depth of every call with `right < idx.length`. -/
def quicksort_indices_SO (c : ℕ → ℚ) (idx : List ℕ) (left right : ℕ) : List ℕ :=
  quicksort_indices_SO_fuel c (right + 1 - left) idx left right

/-- openGA.hpp `rank_population_SO(gen)`, restricted to the construction of
`gen.sorted_indices`: the identity index list `0, ..., N-1` sorted by
`total_cost`, either with the hand-written quicksort (`use_quick_sort`,
the default) or with the language sort (`std::sort` with the comparator
`total_cost[a] < total_cost[b]`, modelled by a merge sort with the
corresponding non-strict comparison).  `c i` is the `total_cost` of
chromosome `i` and `N` the chromosome count. -/
def rank_population_SO_sorted_indices (use_quick_sort : Bool) (c : ℕ → ℚ) (N : ℕ) : List ℕ :=
  if use_quick_sort then quicksort_indices_SO c (List.range N) 0 (N - 1)
  else (List.range N).mergeSort (fun a b => decide (c a ≤ c b))

/-- Costs are non-decreasing along the positions `lo..hi` of an index
list. -/
def SortedRange (c : ℕ → ℚ) (l : List ℕ) (lo hi : ℕ) : Prop :=
  ∀ i j, lo ≤ i → i ≤ j → j ≤ hi → c (l.getD i 0) ≤ c (l.getD j 0)

/-! ### Counting and row-sum lemmas for the reference-vector generator -/

/-- Bridge between a mapped sum over `List.range` and a `Finset.range` sum. -/
lemma sum_map_range {M : Type*} [AddCommMonoid M] (f : ℕ → M) (n : ℕ) :
    ((List.range n).map f).sum = ∑ i in Finset.range n, f i := by
  induction n with
  | zero => simp
  | succ k ih =>
    rw [List.range_succ, List.map_append, List.sum_append, Finset.sum_range_succ, ih]; simp

/-- Summing a list after dividing every entry divides the sum. -/
lemma list_sum_map_div (l : List ℚ) (c : ℚ) : (l.map fun x => x / c).sum = l.sum / c := by
  induction l with
  | nil => simp
  | cons a t ih => simp [ih, add_div]

/-- Hockey-stick identity in the form needed to count simplex-lattice rows. -/
lemma sum_choose_row (n : ℕ) : ∀ d : ℕ,
    (∑ j in Finset.range (d + 1), Nat.choose (n + j) j) = Nat.choose (n + d + 1) d := by
  intro d
  induction d with
  | zero => simp
  | succ k ih =>
    rw [Finset.sum_range_succ, ih]
    have : n + (k + 1) + 1 = (n + k + 1) + 1 := by ring
    rw [this, Nat.choose_succ_succ (n + k + 1) k]
    rfl

/-- Structural facts about the integer Das-Dennis lattice, by induction on the
number of objectives: the recursion always succeeds for a positive `dept`,
produces `C(dept + nd - 1, nd)` rows, and every row has length `dept`,
non-negative entries and entry sum `nd`. -/
lemma generate_integerReferenceVectors_spec (dept : ℕ) : ∀ nd : ℕ,
    ∃ rows, generate_integerReferenceVectors (dept + 1) nd = .ok rows ∧
      rows.length = Nat.choose (dept + nd) nd ∧
      ∀ row ∈ rows, row.length = dept + 1 ∧ row.sum = (nd : ℚ) ∧ ∀ x ∈ row, 0 ≤ x := by
  induction dept with
  | zero =>
    intro nd
    refine ⟨[[(nd : ℚ)]], rfl, by simp, ?_⟩
    intro row hrow
    simp only [List.mem_singleton] at hrow
    subst hrow
    refine ⟨rfl, by simp, ?_⟩
    intro x hx
    simp only [List.mem_singleton] at hx
    subst hx
    exact Nat.cast_nonneg nd
  | succ k ih =>
    intro nd
    refine ⟨_, rfl, ?_, ?_⟩
    · rw [List.length_flatMap]
      have hterm : ∀ i ∈ List.range (nd + 1),
          (List.length ∘ fun i =>
            (match generate_integerReferenceVectors (k + 1) (nd - i) with
             | .ok tail => tail
             | .error _ => []).map fun v => ((i : ℕ) : ℚ) :: v) i
          = Nat.choose (k + (nd - i)) (nd - i) := by
        intro i _
        obtain ⟨rows, hok, hlen, _⟩ := ih (nd - i)
        simp [hok, hlen]
      rw [List.map_congr_left hterm, sum_map_range]
      have hreflect := Finset.sum_range_reflect
        (fun j => Nat.choose (k + j) j) (nd + 1)
      have hrw : ∀ j ∈ Finset.range (nd + 1),
          Nat.choose (k + (nd + 1 - 1 - j)) (nd + 1 - 1 - j)
          = Nat.choose (k + (nd - j)) (nd - j) := by
        intro j _
        have hj : nd + 1 - 1 - j = nd - j := by omega
        rw [hj]
      calc (∑ i in Finset.range (nd + 1), Nat.choose (k + (nd - i)) (nd - i))
          = ∑ j in Finset.range (nd + 1), Nat.choose (k + j) j := by
            rw [← hreflect]; exact Finset.sum_congr rfl hrw
        _ = Nat.choose (k + nd + 1) nd := sum_choose_row k nd
        _ = Nat.choose (k + 1 + nd) nd := by rw [Nat.add_right_comm]
    · intro row hrow
      rw [List.mem_flatMap] at hrow
      obtain ⟨i, hi, hmem⟩ := hrow
      rw [List.mem_range] at hi
      obtain ⟨rows, hok, _, hrows⟩ := ih (nd - i)
      rw [hok] at hmem
      simp only [List.mem_map] at hmem
      obtain ⟨v, hv, hveq⟩ := hmem
      obtain ⟨hvlen, hvsum, hvpos⟩ := hrows v hv
      subst hveq
      refine ⟨by simp [hvlen], ?_, ?_⟩
      · have hle : i ≤ nd := by omega
        rw [List.sum_cons, hvsum, ← Nat.cast_add, Nat.add_sub_cancel' hle]
      · intro x hx
        rcases List.mem_cons.mp hx with hx0 | hx1
        · subst hx0; exact Nat.cast_nonneg i
        · exact hvpos x hx1

/-- C9: for `dept ≥ 1` and `d ≥ 1` the reference-vector generator returns
exactly `C(dept + d - 1, d)` rows whose non-negative components sum to 1
(each integer lattice row sums to `d` before the division by `d`), and for
`dept < 1` it signals a programmer error. -/
theorem generate_referenceVectors_rows (dept nd : ℕ) (hdept : 1 ≤ dept) (hnd : 1 ≤ nd) :
    (∃ rows, generate_referenceVectors dept nd = .ok rows ∧
       rows.length = Nat.choose (dept + nd - 1) nd ∧
       ∀ row ∈ rows, row.sum = 1 ∧ ∀ x ∈ row, 0 ≤ x) ∧
    (∃ rowsZ, generate_integerReferenceVectors dept nd = .ok rowsZ ∧
       ∀ row ∈ rowsZ, row.sum = (nd : ℚ)) ∧
    generate_integerReferenceVectors 0 nd = .error "wrong vector dept!" := by
  obtain ⟨k, rfl⟩ := Nat.exists_eq_add_of_le hdept
  obtain ⟨rowsZ, hok, hlen, hrows⟩ := generate_integerReferenceVectors_spec k nd
  have hd : (1 + k : ℕ) = k + 1 := Nat.add_comm 1 k
  rw [hd]
  have hndQ : (nd : ℚ) ≠ 0 := Nat.cast_ne_zero.mpr (by omega)
  refine ⟨⟨rowsZ.map fun row => row.map fun x => x / (nd : ℚ), ?_, ?_, ?_⟩, ⟨rowsZ, hok, ?_⟩, rfl⟩
  · unfold generate_referenceVectors
    rw [hok]
  · rw [List.length_map, hlen]
    congr 1
    omega
  · intro row hrow
    simp only [List.mem_map] at hrow
    obtain ⟨row0, hrow0, hroweq⟩ := hrow
    obtain ⟨_, hsum, hpos⟩ := hrows row0 hrow0
    subst hroweq
    constructor
    · rw [list_sum_map_div, hsum, div_self hndQ]
    · intro x hx
      simp only [List.mem_map] at hx
      obtain ⟨y, hy, hyeq⟩ := hx
      subst hyeq
      exact div_nonneg (hpos y hy) (Nat.cast_nonneg nd)
  · intro row hrow
    exact (hrows row hrow).2.1

/-- Witness for C9 at the seeded scenario `dept = 3`, `d = 4`
(15 reference vectors). -/
theorem generate_referenceVectors_rows_witness :
    (1 ≤ 3 ∧ 1 ≤ 4) ∧
    ((∃ rows, generate_referenceVectors 3 4 = .ok rows ∧
        rows.length = Nat.choose (3 + 4 - 1) 4 ∧
        ∀ row ∈ rows, row.sum = 1 ∧ ∀ x ∈ row, 0 ≤ x) ∧
      (∃ rowsZ, generate_integerReferenceVectors 3 4 = .ok rowsZ ∧
        ∀ row ∈ rowsZ, row.sum = (4 : ℚ)) ∧
      generate_integerReferenceVectors 0 4 = .error "wrong vector dept!") :=
  ⟨⟨by decide, by decide⟩, generate_referenceVectors_rows 3 4 (by decide) (by decide)⟩

/-! ### Theorems about `dominates` and `Matrix.print` -/

/-- C7: for equal-length objective vectors, `dominates a b` is true exactly
when no component of `a` exceeds the matching component of `b` and some
component is strictly smaller; componentwise-equal vectors dominate in
neither direction. -/
theorem dominates_iff (a b : List ℚ) (h : a.length = b.length) :
    (dominates a b = .ok true ↔
       (∀ i < a.length, a.getD i 0 ≤ b.getD i 0) ∧
       ∃ i < a.length, a.getD i 0 < b.getD i 0) ∧
    (a = b → dominates a b = .ok false ∧ dominates b a = .ok false) := by
  constructor
  · unfold dominates
    rw [if_neg (by simp [h])]
    by_cases hex : (List.range a.length).any (fun i => decide (b.getD i 0 < a.getD i 0)) = true
    · rw [if_pos hex]
      simp only [List.any_eq_true, List.mem_range, decide_eq_true_eq] at hex
      obtain ⟨i, hi, hbi⟩ := hex
      constructor
      · intro hcontr; cases hcontr
      · rintro ⟨hall, -⟩
        exact absurd (hall i hi) (not_le.mpr hbi)
    · rw [if_neg hex]
      simp only [List.any_eq_true, List.mem_range, decide_eq_true_eq] at hex
      push_neg at hex
      constructor
      · intro hok
        have hany := Except.ok.inj hok
        simp only [List.any_eq_true, List.mem_range, decide_eq_true_eq] at hany
        obtain ⟨i, hi, hlt⟩ := hany
        exact ⟨fun j hj => hex j hj, ⟨i, hi, hlt⟩⟩
      · rintro ⟨-, i, hi, hlt⟩
        have : (List.range a.length).any (fun i => decide (a.getD i 0 < b.getD i 0)) = true := by
          simp only [List.any_eq_true, List.mem_range, decide_eq_true_eq]
          exact ⟨i, hi, hlt⟩
        rw [this]
  · rintro rfl
    unfold dominates
    simp
/-- Witness for C7 on the concrete vectors `[1, 2]` and `[1, 3]`. -/
theorem dominates_iff_witness :
    (([1, 2] : List ℚ).length = ([1, 3] : List ℚ).length) ∧
    ((dominates [1, 2] [1, 3] = .ok true ↔
       (∀ i < ([1, 2] : List ℚ).length,
          ([1, 2] : List ℚ).getD i 0 ≤ ([1, 3] : List ℚ).getD i 0) ∧
       ∃ i < ([1, 2] : List ℚ).length,
          ([1, 2] : List ℚ).getD i 0 < ([1, 3] : List ℚ).getD i 0) ∧
     (([1, 2] : List ℚ) = [1, 3] →
       dominates [1, 2] [1, 3] = .ok false ∧ dominates [1, 3] [1, 2] = .ok false)) :=
  ⟨by decide, dominates_iff [1, 2] [1, 3] (by decide)⟩

/-- C10: `Matrix::print` clears the element storage as a side effect: after
it returns, `empty()` is true and the data vector is empty, while
`get_n_rows()` and `get_n_cols()` still report the original dimensions. -/
theorem Matrix_print_clears_data (m : Matrix) :
    (m.print).2.empty = true ∧ (m.print).2.data = [] ∧
    (m.print).2.get_n_rows = m.get_n_rows ∧
    (m.print).2.get_n_cols = m.get_n_cols := by
  refine ⟨?_, rfl, rfl, rfl⟩
  simp [Matrix.print, Matrix.empty]

/-! ### The selection-chance table: monotonicity and normalization -/

/-- The accumulation preserves the list length. -/
lemma cumulative_length {K : Type*} [AddCommMonoid K] (acc : K) (ws : List K) :
    (cumulative acc ws).length = ws.length := by
  induction ws generalizing acc with
  | nil => rfl
  | cons w ws ih => simp [cumulative, ih]

/-- Every accumulated entry strictly exceeds the start value when all
weights are positive. -/
lemma cumulative_gt_start (acc : ℝ) (ws : List ℝ) (hw : ∀ w ∈ ws, 0 < w) :
    ∀ i < ws.length, acc < (cumulative acc ws).getD i 0 := by
  induction ws generalizing acc with
  | nil => intro i hi; exact absurd hi (Nat.not_lt_zero i)
  | cons w ws ih =>
    intro i hi
    have hwpos : 0 < w := hw w (List.mem_cons_self w ws)
    cases i with
    | zero =>
      simp only [cumulative, List.getD_cons_zero]
      linarith
    | succ j =>
      simp only [cumulative, List.getD_cons_succ]
      have h1 := ih (acc + w) (fun w' hw' => hw w' (List.mem_cons_of_mem w hw')) j
        (by simpa using hi)
      linarith

/-- The accumulated table is strictly increasing when all weights are
positive. -/
lemma cumulative_chain_lt (acc : ℝ) (ws : List ℝ) (hw : ∀ w ∈ ws, 0 < w) :
    List.Chain' (· < ·) (cumulative acc ws) := by
  induction ws generalizing acc with
  | nil => exact List.chain'_nil
  | cons w ws ih =>
    have htail := ih (acc + w) (fun w' hw' => hw w' (List.mem_cons_of_mem w hw'))
    cases ws with
    | nil => simp [cumulative]
    | cons w2 ws2 =>
      simp only [cumulative] at htail ⊢
      rw [List.chain'_cons]
      refine ⟨?_, htail⟩
      have : 0 < w2 := hw w2 (List.mem_cons_of_mem w (List.mem_cons_self w2 ws2))
      linarith

/-- Defaulted reads of a strictly increasing list are strictly monotone. -/
lemma chain'_lt_getD_lt (l : List ℝ) (h : List.Chain' (· < ·) l) {i j : ℕ}
    (hij : i < j) (hj : j < l.length) : l.getD i 0 < l.getD j 0 := by
  have hp : List.Pairwise (· < ·) l := List.chain'_iff_pairwise.mp h
  rw [List.pairwise_iff_getElem] at hp
  have hi : i < l.length := lt_trans hij hj
  rw [List.getD_eq_getElem l 0 hi, List.getD_eq_getElem l 0 hj]
  exact hp i j hi hj hij

/-- The weight `1 / sqrt(rank + 1)` is positive. -/
lemma selection_chance_weight_pos (r : ℕ) : 0 < selection_chance_weight r := by
  unfold selection_chance_weight
  have h1 : (0 : ℝ) < Real.sqrt ((r : ℝ) + 1) := Real.sqrt_pos.mpr (by positivity)
  positivity

/-- Defaulted read of a just-written position. -/
lemma getD_set_eq {α : Type*} (l : List α) (i : ℕ) (a d : α) (h : i < l.length) :
    (l.set i a).getD i d = a := by
  rw [List.getD_eq_getElem?_getD, List.getElem?_set]
  simp [h]

/-- Defaulted read of a position other than the written one. -/
lemma getD_set_ne {α : Type*} (l : List α) (i j : ℕ) (a d : α) (h : i ≠ j) :
    (l.set i a).getD j d = l.getD j d := by
  rw [List.getD_eq_getElem?_getD, List.getElem?_set, if_neg h,
    ← List.getD_eq_getElem?_getD]

/-- All weights fed into the accumulation are positive. -/
lemma ranks_weights_pos (ranks : List ℕ) :
    ∀ w ∈ ranks.map selection_chance_weight, 0 < w := by
  intro w hw
  rw [List.mem_map] at hw
  obtain ⟨rk, _, rfl⟩ := hw
  exact selection_chance_weight_pos rk

/-- The raw cumulative value read at index `population - 1` is positive. -/
lemma scc_divisor_pos (ranks : List ℕ) (P : ℕ) (hP : 1 ≤ P) (hlen : P ≤ ranks.length) :
    0 < (cumulative 0 (ranks.map selection_chance_weight)).getD (P - 1) 0 := by
  have hidx : P - 1 < (ranks.map selection_chance_weight).length := by
    rw [List.length_map]; omega
  exact cumulative_gt_start 0 _ (ranks_weights_pos ranks) (P - 1) hidx

/-- Effect of the first `j` iterations of the in-place normalization loop
on a table `A` with non-zero divisor cell at `P - 1`: every visited entry
below index `P` is divided by the original divisor; the divisor cell itself
becomes 1 at iteration `P - 1`, so every entry at an index at or beyond `P`
— visited or not — still holds its original value. -/
lemma normalize_step_foldl (P : ℕ) (A : List ℝ) (hP : 1 ≤ P) (hPA : P ≤ A.length)
    (hD : A.getD (P - 1) 0 ≠ 0) :
    ∀ j, j ≤ A.length →
      ((List.range j).foldl
          (fun cur i => cur.set i (cur.getD i 0 / cur.getD (P - 1) 0)) A).length
        = A.length ∧
      (∀ i, i < j → i < P →
        ((List.range j).foldl
            (fun cur i => cur.set i (cur.getD i 0 / cur.getD (P - 1) 0)) A).getD i 0
          = A.getD i 0 / A.getD (P - 1) 0) ∧
      (∀ i, i < A.length → (j ≤ i ∨ P ≤ i) →
        ((List.range j).foldl
            (fun cur i => cur.set i (cur.getD i 0 / cur.getD (P - 1) 0)) A).getD i 0
          = A.getD i 0) := by
  intro j
  induction j with
  | zero =>
    intro _
    refine ⟨rfl, ?_, ?_⟩
    · intro i hi _
      exact absurd hi (Nat.not_lt_zero i)
    · intro i _ _
      rfl
  | succ n ih =>
    intro hj1
    obtain ⟨ih1, ih2, ih3⟩ := ih (by omega)
    have hstep : (List.range (n + 1)).foldl
        (fun cur i => cur.set i (cur.getD i 0 / cur.getD (P - 1) 0)) A
        = ((List.range n).foldl
            (fun cur i => cur.set i (cur.getD i 0 / cur.getD (P - 1) 0)) A).set n
          (((List.range n).foldl
              (fun cur i => cur.set i (cur.getD i 0 / cur.getD (P - 1) 0)) A).getD n 0
            / ((List.range n).foldl
                (fun cur i => cur.set i (cur.getD i 0 / cur.getD (P - 1) 0)) A).getD
              (P - 1) 0) := by
      rw [List.range_succ, List.foldl_append]
      rfl
    rw [hstep]
    set F := (List.range n).foldl
      (fun cur i => cur.set i (cur.getD i 0 / cur.getD (P - 1) 0)) A with hFdef
    have hdiv : F.getD (P - 1) 0 = if n < P then A.getD (P - 1) 0 else 1 := by
      by_cases hnp : n < P
      · rw [if_pos hnp]
        exact ih3 (P - 1) (by omega) (Or.inl (by omega))
      · rw [if_neg hnp]
        rw [ih2 (P - 1) (by omega) (by omega)]
        exact div_self hD
    have hFn : F.getD n 0 = A.getD n 0 := ih3 n (by omega) (Or.inl (le_refl n))
    have hnF : n < F.length := by rw [ih1]; omega
    refine ⟨?_, ?_, ?_⟩
    · rw [List.length_set, ih1]
    · intro i hi1 hi2
      by_cases hin : i = n
      · subst hin
        rw [getD_set_eq _ _ _ _ hnF, hFn, hdiv, if_pos hi2]
      · have hlt : i < n := by omega
        rw [getD_set_ne _ _ _ _ _ (fun h => hin h.symm)]
        exact ih2 i hlt hi2
    · intro i hi hcase
      by_cases hin : i = n
      · subst hin
        have hPn : P ≤ i := by
          rcases hcase with h | h
          · omega
          · exact h
        rw [getD_set_eq _ _ _ _ hnF, hFn, hdiv, if_neg (by omega), div_one]
      · rw [getD_set_ne _ _ _ _ _ (fun h => hin h.symm)]
        apply ih3 i hi
        rcases hcase with h | h
        · exact Or.inl (by omega)
        · exact Or.inr h

/-- The normalization loop leaves the table length unchanged, whatever
index list it visits. -/
lemma foldl_normalize_length (P : ℕ) : ∀ (l : List ℕ) (A : List ℝ),
    (l.foldl (fun cur i => cur.set i (cur.getD i 0 / cur.getD (P - 1) 0)) A).length
      = A.length := by
  intro l
  induction l with
  | nil => intro A; rfl
  | cons a t ih =>
    intro A
    rw [List.foldl_cons, ih, List.length_set]

/-- The selection-chance table has one entry per chromosome. -/
lemma generate_selection_chance_length (ranks : List ℕ) (P : ℕ) :
    (generate_selection_chance ranks P).length = ranks.length := by
  unfold generate_selection_chance
  rw [foldl_normalize_length, cumulative_length, List.length_map]

/-- Entries below index `population` are the raw cumulative values divided
by the raw value at index `population - 1`. -/
lemma scc_entry_below_population (ranks : List ℕ) (P : ℕ)
    (hP : 1 ≤ P) (hlen : P ≤ ranks.length) :
    ∀ i, i < P →
      (generate_selection_chance ranks P).getD i 0
        = (cumulative 0 (ranks.map selection_chance_weight)).getD i 0
          / (cumulative 0 (ranks.map selection_chance_weight)).getD (P - 1) 0 := by
  intro i hi
  have hAlen : (cumulative 0 (ranks.map selection_chance_weight)).length
      = ranks.length := by
    rw [cumulative_length, List.length_map]
  obtain ⟨-, h2, -⟩ := normalize_step_foldl P
    (cumulative 0 (ranks.map selection_chance_weight)) hP (by omega)
    (ne_of_gt (scc_divisor_pos ranks P hP hlen)) ranks.length (by omega)
  exact h2 i (by omega) hi

/-- Entries at index `population` or beyond keep their raw cumulative
values: by the time the loop reaches them the divisor cell already holds
1. -/
lemma scc_entry_from_population (ranks : List ℕ) (P : ℕ)
    (hP : 1 ≤ P) (hlen : P ≤ ranks.length) :
    ∀ i, P ≤ i → i < ranks.length →
      (generate_selection_chance ranks P).getD i 0
        = (cumulative 0 (ranks.map selection_chance_weight)).getD i 0 := by
  intro i hi1 hi2
  have hAlen : (cumulative 0 (ranks.map selection_chance_weight)).length
      = ranks.length := by
    rw [cumulative_length, List.length_map]
  obtain ⟨-, -, h3⟩ := normalize_step_foldl P
    (cumulative 0 (ranks.map selection_chance_weight)) hP (by omega)
    (ne_of_gt (scc_divisor_pos ranks P hP hlen)) ranks.length (by omega)
  exact h3 i (by omega) (Or.inr hi1)

/-- After normalization the entry at index `population - 1` equals 1. -/
lemma scc_normalized_at_population (ranks : List ℕ) (P : ℕ)
    (hP : 1 ≤ P) (hlen : P ≤ ranks.length) :
    (generate_selection_chance ranks P).getD (P - 1) 0 = 1 := by
  rw [scc_entry_below_population ranks P hP hlen (P - 1) (by omega)]
  exact div_self (ne_of_gt (scc_divisor_pos ranks P hP hlen))

/-- The first `population` entries of the table are strictly increasing. -/
lemma scc_take_chain_lt (ranks : List ℕ) (P : ℕ)
    (hP : 1 ≤ P) (hlen : P ≤ ranks.length) :
    List.Chain' (· < ·) ((generate_selection_chance ranks P).take P) := by
  have hlenscc := generate_selection_chance_length ranks P
  have hAlen : (cumulative 0 (ranks.map selection_chance_weight)).length
      = ranks.length := by
    rw [cumulative_length, List.length_map]
  rw [List.chain'_iff_pairwise, List.pairwise_iff_getElem]
  intro i j hi hj hij
  have htlen : ((generate_selection_chance ranks P).take P).length = P := by
    rw [List.length_take, hlenscc, min_eq_left hlen]
  have hiP : i < P := by rw [htlen] at hi; exact hi
  have hjP : j < P := by rw [htlen] at hj; exact hj
  rw [List.getElem_take, List.getElem_take,
    ← List.getD_eq_getElem _ 0 (by rw [hlenscc]; omega),
    ← List.getD_eq_getElem _ 0 (by rw [hlenscc]; omega),
    scc_entry_below_population ranks P hP hlen i hiP,
    scc_entry_below_population ranks P hP hlen j hjP]
  exact (div_lt_div_iff_of_pos_right (scc_divisor_pos ranks P hP hlen)).mpr
    (chain'_lt_getD_lt _ (cumulative_chain_lt 0 _ (ranks_weights_pos ranks)) hij
      (by rw [hAlen]; omega))

/-- The last accumulated entry is the start value plus the weight sum. -/
lemma cumulative_getD_last : ∀ (ws : List ℝ) (acc : ℝ), ws ≠ [] →
    (cumulative acc ws).getD (ws.length - 1) 0 = acc + ws.sum := by
  intro ws
  induction ws with
  | nil => intro acc h; exact absurd rfl h
  | cons w t ih =>
    intro acc _
    cases t with
    | nil => simp [cumulative]
    | cons w2 t2 =>
      have hidx : (w :: w2 :: t2).length - 1 = (w2 :: t2).length - 1 + 1 := by
        simp [List.length_cons]
      have hcum : cumulative acc (w :: w2 :: t2)
          = (acc + w) :: cumulative (acc + w) (w2 :: t2) := rfl
      rw [hcum, hidx, List.getD_cons_succ, ih (acc + w) (by simp)]
      simp only [List.sum_cons]
      ring

/-- The weight of rank 0 is exactly 1. -/
lemma selection_chance_weight_zero : selection_chance_weight 0 = 1 := by
  unfold selection_chance_weight
  norm_num [Real.sqrt_one]

/-- A rank list of two or more chromosomes containing rank 0 has weight sum
strictly above 1. -/
lemma ranks_weight_sum_gt_one (ranks : List ℕ) (h0 : 0 ∈ ranks)
    (h2 : 2 ≤ ranks.length) :
    1 < (ranks.map selection_chance_weight).sum := by
  obtain ⟨s, t, rfl⟩ := List.append_of_mem h0
  rw [List.map_append, List.sum_append, List.map_cons, List.sum_cons,
    selection_chance_weight_zero]
  have ht : 0 ≤ (t.map selection_chance_weight).sum :=
    List.sum_nonneg fun x hx => le_of_lt (ranks_weights_pos t x hx)
  cases s with
  | nil =>
    have htne : t ≠ [] := by
      intro h
      subst h
      simp at h2
    have htpos : 0 < (t.map selection_chance_weight).sum :=
      List.sum_pos _ (fun x hx => ranks_weights_pos t x hx) (by simp [htne])
    simp only [List.map_nil, List.sum_nil]
    linarith
  | cons a s2 =>
    have hspos : 0 < ((a :: s2).map selection_chance_weight).sum :=
      List.sum_pos _ (fun x hx => ranks_weights_pos (a :: s2) x hx) (by simp)
    linarith

/-- For the actual rank vectors the engine produces (some chromosome has
rank 0) the raw final entry of a combined generation strictly exceeds 1. -/
lemma scc_final_raw_gt_one (ranks : List ℕ) (P : ℕ)
    (hP : 1 ≤ P) (hlt : P < ranks.length) (h0 : 0 ∈ ranks) :
    1 < (generate_selection_chance ranks P).getD (ranks.length - 1) 0 := by
  rw [scc_entry_from_population ranks P hP (le_of_lt hlt) (ranks.length - 1)
    (by omega) (by omega)]
  have hwslen : (ranks.map selection_chance_weight).length = ranks.length :=
    List.length_map ranks selection_chance_weight
  have hwsne : ranks.map selection_chance_weight ≠ [] := by
    intro h
    rw [h] at hwslen
    simp at hwslen
    omega
  have hlast := cumulative_getD_last (ranks.map selection_chance_weight) 0 hwsne
  rw [hwslen] at hlast
  rw [hlast, zero_add]
  exact ranks_weight_sum_gt_one ranks h0 (by omega)

/-- C1 (amended): on every generation whose selection chances are generated
(`P ≤ N` chromosomes), the normalization loop divides in place by the cell
at index `P - 1`, so the first `P` entries — the raw cumulative values
divided by the original cell value — are strictly increasing and the entry
at index `P - 1` equals exactly 1, while every entry at index `P` or
beyond is left at its raw cumulative value (its divisor cell already holds
1).  For a generation of exactly `P` chromosomes the whole table is
therefore strictly increasing with final entry exactly 1; for the combined
parent-plus-offspring generation of size greater than `P` the final entry
is the raw cumulative weight sum, which strictly exceeds 1 whenever some
chromosome has rank 0 (always the case for the rank vectors the engine
produces). -/
theorem generate_selection_chance_table (ranks : List ℕ) (P : ℕ)
    (hP : 1 ≤ P) (hlen : P ≤ ranks.length) :
    List.Chain' (· < ·) ((generate_selection_chance ranks P).take P) ∧
    (generate_selection_chance ranks P).getD (P - 1) 0 = 1 ∧
    (∀ i, P ≤ i → i < ranks.length →
      (generate_selection_chance ranks P).getD i 0
        = (cumulative 0 (ranks.map selection_chance_weight)).getD i 0) ∧
    (ranks.length = P → List.Chain' (· < ·) (generate_selection_chance ranks P)) ∧
    (P < ranks.length → 0 ∈ ranks →
      1 < (generate_selection_chance ranks P).getD (ranks.length - 1) 0) := by
  refine ⟨scc_take_chain_lt ranks P hP hlen,
    scc_normalized_at_population ranks P hP hlen,
    scc_entry_from_population ranks P hP hlen, ?_, ?_⟩
  · intro hNP
    have hfull : (generate_selection_chance ranks P).take P
        = generate_selection_chance ranks P :=
      List.take_of_length_le (by rw [generate_selection_chance_length, hNP])
    rw [← hfull]
    exact scc_take_chain_lt ranks P hP hlen
  · intro hlt h0
    exact scc_final_raw_gt_one ranks P hP hlt h0

/-- Witness for the amended C1 on a one-chromosome generation. -/
theorem generate_selection_chance_table_witness :
    (1 ≤ 1 ∧ 1 ≤ ([0] : List ℕ).length) ∧
    (List.Chain' (· < ·) ((generate_selection_chance [0] 1).take 1) ∧
     (generate_selection_chance [0] 1).getD (1 - 1) 0 = 1 ∧
     (∀ i, 1 ≤ i → i < ([0] : List ℕ).length →
       (generate_selection_chance [0] 1).getD i 0
         = (cumulative 0 (([0] : List ℕ).map selection_chance_weight)).getD i 0) ∧
     (([0] : List ℕ).length = 1 →
       List.Chain' (· < ·) (generate_selection_chance [0] 1)) ∧
     (1 < ([0] : List ℕ).length → 0 ∈ ([0] : List ℕ) →
       1 < (generate_selection_chance [0] 1).getD (([0] : List ℕ).length - 1) 0)) :=
  ⟨⟨le_refl 1, by norm_num⟩,
    generate_selection_chance_table [0] 1 (le_refl 1) (by norm_num)⟩

/-- C1 counterexample: with `population = 1` and a combined generation of
two chromosomes ranked `[0, 1]`, the final entry of the table is the raw
cumulative value `1 + 1/sqrt 2` (its divisor cell was already normalized
to 1), which is not within `1e-12` of 1. -/
theorem generate_selection_chance_final_entry_off :
    ¬ |(generate_selection_chance [0, 1] 1).getD 1 0 - 1| ≤ 1 / 10 ^ 12 := by
  have hval : (generate_selection_chance [0, 1] 1).getD 1 0 = 1 + 1 / Real.sqrt 2 := by
    rw [scc_entry_from_population [0, 1] 1 (le_refl 1) (by norm_num) 1 (le_refl 1)
      (by norm_num)]
    simp [cumulative, selection_chance_weight, Real.sqrt_one]
    norm_num
  have h2 : Real.sqrt 2 < 2 := (Real.sqrt_lt' (by norm_num)).mpr (by norm_num)
  have hpos : 0 < Real.sqrt 2 := Real.sqrt_pos.mpr (by norm_num)
  have hgt : 1 / 2 < 1 / Real.sqrt 2 := one_div_lt_one_div_of_lt hpos h2
  rw [hval]
  have heq : (1 : ℝ) + 1 / Real.sqrt 2 - 1 = 1 / Real.sqrt 2 := by ring
  rw [heq, abs_of_pos (by positivity)]
  intro hle
  have hsmall : (1 : ℝ) / 10 ^ 12 < 1 / 2 := by norm_num
  linarith

/-! ### `select_parent` returns the least qualifying index -/

/-- Behaviour of the `select_parent` scan: starting at `pos` with `fuel`
remaining positions, the scan stops at the first position whose entry is at
least `r`, or at `pos + fuel` when every scanned entry is below `r`. -/
lemma select_parent_loop_spec {K : Type*} [LinearOrderedField K] (scc : List K) (r : K) :
    ∀ (fuel pos : ℕ),
      pos ≤ select_parent_loop scc r fuel pos ∧
      select_parent_loop scc r fuel pos ≤ pos + fuel ∧
      (∀ k, pos ≤ k → k < select_parent_loop scc r fuel pos → scc.getD k 0 < r) ∧
      (select_parent_loop scc r fuel pos < pos + fuel →
        r ≤ scc.getD (select_parent_loop scc r fuel pos) 0) := by
  intro fuel
  induction fuel with
  | zero =>
    intro pos
    have hz : select_parent_loop scc r 0 pos = pos := rfl
    rw [hz]
    exact ⟨le_refl pos, by omega, fun k hk1 hk2 => by omega, fun h => by omega⟩
  | succ f ih =>
    intro pos
    rw [select_parent_loop]
    by_cases h : scc.getD pos 0 < r
    · rw [if_pos h]
      obtain ⟨ih1, ih2, ih3, ih4⟩ := ih (pos + 1)
      refine ⟨by omega, by omega, ?_, fun hlt => ih4 (by omega)⟩
      intro k hk1 hk2
      rcases eq_or_lt_of_le hk1 with rfl | hk
      · exact h
      · exact ih3 k (by omega) hk2
    · rw [if_neg h]
      exact ⟨le_refl pos, by omega, fun k hk1 hk2 => absurd hk2 (by omega),
        fun _ => le_of_not_lt h⟩

/-- C2: on a generation whose selection-chance table has been computed
(`P ≤ N = ranks.length`) and for every draw `r ∈ [0, 1)`, `select_parent`
returns the smallest index whose cumulative entry is at least `r` (such an
index always exists because the entry at `P - 1` equals 1), and in the —
never occurring — situation that every entry were below `r` it would return
the last index. -/
theorem select_parent_returns_least_qualifying_index (ranks : List ℕ) (P : ℕ) (r : ℝ)
    (hP : 1 ≤ P) (hlen : P ≤ ranks.length) (_hr0 : 0 ≤ r) (hr1 : r < 1) :
    select_parent ranks.length (generate_selection_chance ranks P) r < ranks.length ∧
    r ≤ (generate_selection_chance ranks P).getD
      (select_parent ranks.length (generate_selection_chance ranks P) r) 0 ∧
    (∀ k < select_parent ranks.length (generate_selection_chance ranks P) r,
      (generate_selection_chance ranks P).getD k 0 < r) ∧
    ((∀ i < ranks.length, (generate_selection_chance ranks P).getD i 0 < r) →
      select_parent ranks.length (generate_selection_chance ranks P) r
        = ranks.length - 1) := by
  have hPval := scc_normalized_at_population ranks P hP hlen
  obtain ⟨h1, h2, h3, h4⟩ :=
    select_parent_loop_spec (generate_selection_chance ranks P) r ranks.length 0
  have hloop : select_parent ranks.length (generate_selection_chance ranks P) r
      = select_parent_loop (generate_selection_chance ranks P) r ranks.length 0 := rfl
  rw [hloop]
  have hres : select_parent_loop (generate_selection_chance ranks P) r ranks.length 0
      < ranks.length := by
    by_contra hge
    push_neg at hge
    have := h3 (P - 1) (Nat.zero_le _) (by omega)
    rw [hPval] at this
    linarith
  refine ⟨hres, h4 (by omega), fun k hk => h3 k (Nat.zero_le _) hk, ?_⟩
  intro hall
  have := hall (P - 1) (by omega)
  rw [hPval] at this
  linarith

/-- Witness for C2 on a one-chromosome generation with draw `r = 0`. -/
theorem select_parent_returns_least_qualifying_index_witness :
    (1 ≤ 1 ∧ 1 ≤ ([0] : List ℕ).length ∧ (0 : ℝ) ≤ 0 ∧ (0 : ℝ) < 1) ∧
    (select_parent ([0] : List ℕ).length (generate_selection_chance [0] 1) (0 : ℝ)
        < ([0] : List ℕ).length ∧
      (0 : ℝ) ≤ (generate_selection_chance [0] 1).getD
        (select_parent ([0] : List ℕ).length (generate_selection_chance [0] 1) (0 : ℝ)) 0 ∧
      (∀ k < select_parent ([0] : List ℕ).length
          (generate_selection_chance [0] 1) (0 : ℝ),
        (generate_selection_chance [0] 1).getD k 0 < (0 : ℝ)) ∧
      ((∀ i < ([0] : List ℕ).length,
          (generate_selection_chance [0] 1).getD i 0 < (0 : ℝ)) →
        select_parent ([0] : List ℕ).length (generate_selection_chance [0] 1) (0 : ℝ)
          = ([0] : List ℕ).length - 1)) :=
  ⟨⟨le_refl 1, by norm_num, le_refl 0, by norm_num⟩,
    select_parent_returns_least_qualifying_index [0] 1 0 (le_refl 1) (by norm_num)
      (le_refl 0) (by norm_num)⟩

/-! ### The stop criteria: divergence at generation step 1 and agreement
from step 2 on -/

/-- C4 counterexample: at generation step 1 (the first step beyond the
zeroth) with `generation_max = 1` and `user_request_stop` unset,
`stop_critera` returns `Undefined` and leaves both stall counters at 0,
while the claimed behaviour updates the counters and returns
`MaxGenerations`. -/
theorem stop_critera_step_one_counterexample :
    stop_critera true false 1 1 10 10 1 1 [⟨0, 0⟩, ⟨0, 0⟩] 0 0 = (0, 0, .Undefined) ∧
    stop_criteria_claimed true false 1 1 10 10 1 1 [⟨0, 0⟩, ⟨0, 0⟩] 0 0
      = (1, 1, .MaxGenerations) ∧
    ((0, 0, StopReason.Undefined) : ℤ × ℤ × StopReason) ≠ (1, 1, .MaxGenerations) :=
  ⟨by decide, by norm_num [stop_criteria_claimed], by decide⟩

/-- C4 (amended): from generation step 2 on — and at earlier steps whenever
`user_request_stop` is set — `stop_critera` updates the stall counters and
returns the first applicable reason in the claimed order; at steps below 2
without a user stop request it instead returns `Undefined` immediately,
leaving the counters unchanged. -/
theorem stop_critera_matches_claim_from_step_two
    (single_objective user_request_stop : Bool)
    (generation_step generation_max best_stall_max average_stall_max : ℤ)
    (tol_stall_best tol_stall_average : ℚ)
    (generations_so_abs : List GenerationTypeSOAbstract)
    (best_stall_count average_stall_count : ℤ)
    (h : 2 ≤ generation_step ∨ user_request_stop = true) :
    stop_critera single_objective user_request_stop generation_step generation_max
      best_stall_max average_stall_max tol_stall_best tol_stall_average
      generations_so_abs best_stall_count average_stall_count
    = stop_criteria_claimed single_objective user_request_stop generation_step
      generation_max best_stall_max average_stall_max tol_stall_best tol_stall_average
      generations_so_abs best_stall_count average_stall_count := by
  unfold stop_critera stop_criteria_claimed
  rw [if_neg]
  rintro ⟨h1, h2⟩
  rcases h with h3 | h3
  · omega
  · rw [h3] at h2
    cases h2

/-- Witness for the amended C4 at generation step 2. -/
theorem stop_critera_matches_claim_from_step_two_witness :
    ((2 : ℤ) ≤ 2 ∨ false = true) ∧
    stop_critera true false 2 5 10 10 1 1 [⟨0, 0⟩, ⟨0, 0⟩] 0 0
      = stop_criteria_claimed true false 2 5 10 10 1 1 [⟨0, 0⟩, ⟨0, 0⟩] 0 0 :=
  ⟨Or.inl (by norm_num),
    stop_critera_matches_claim_from_step_two true false 2 5 10 10 1 1
      [⟨0, 0⟩, ⟨0, 0⟩] 0 0 (Or.inl (by norm_num))⟩

/-! ### Configuration-error timing -/

/-- C6 counterexample: a configuration with `crossover_fraction = 3/2`
(outside `(0, 1]`) passes `check_settings`, so `solve_init` completes and
pushes generation 0 onto `generations_so_abs`; the range error is raised
only by `crossover_and_mutation` during the first `solve_next_generation`
(generation step 1). -/
theorem crossover_fraction_error_not_before_generation0 :
    check_settings cfgInvalidCrossover = .ok () ∧
    solve_init_pushes cfgInvalidCrossover = .ok 1 ∧
    crossover_and_mutation_check cfgInvalidCrossover 1
      = .error "Wrong crossover fractoin" ∧
    1 < cfgInvalidCrossover.crossover_fraction := by
  refine ⟨rfl, rfl, ?_, by norm_num [cfgInvalidCrossover]⟩
  norm_num [crossover_and_mutation_check, cfgInvalidCrossover]

/-- C6 (amended): configuration errors found by `check_settings`
(mode/callback mismatch, `population < 1`, `N_threads < 1`) are raised
before any generation is produced, but an out-of-range
`crossover_fraction` or `mutation_rate`, and the IGA
`E + round(P*chi) != P` error, are raised only at the start of the first
`solve_next_generation`, after generation 0 has been pushed. -/
theorem late_config_errors_raised_after_generation0 (c : GAConfig)
    (hok : check_settings c = .ok ())
    (hurs : c.user_request_stop = false)
    (hbad : c.crossover_fraction ≤ 0 ∨ 1 < c.crossover_fraction ∨
      c.mutation_rate < 0 ∨ 1 < c.mutation_rate ∨
      (is_interactive c.problem_mode = true ∧
        cppRound ((c.population : ℚ) * c.crossover_fraction) + c.elite_count
          ≠ (c.population : ℤ))) :
    solve_init_pushes c = .ok 1 ∧
    ∃ msg, crossover_and_mutation_check c 1 = .error msg := by
  constructor
  · unfold solve_init_pushes
    rw [hok, hurs]
    rfl
  · unfold crossover_and_mutation_check
    rw [if_neg (by rw [hurs]; exact fun hcontr => by cases hcontr)]
    by_cases h1 : c.crossover_fraction ≤ 0 ∨ 1 < c.crossover_fraction
    · exact ⟨_, by rw [if_pos h1]⟩
    · rw [if_neg h1]
      by_cases h2 : c.mutation_rate < 0 ∨ 1 < c.mutation_rate
      · exact ⟨_, by rw [if_pos h2]⟩
      · rw [if_neg h2, if_neg (by norm_num)]
        have h3 : is_interactive c.problem_mode = true ∧
            cppRound ((c.population : ℚ) * c.crossover_fraction) + c.elite_count
              ≠ (c.population : ℤ) := by
          rcases hbad with hb | hb | hb | hb | hb
          · exact absurd (Or.inl hb) h1
          · exact absurd (Or.inr hb) h1
          · exact absurd (Or.inl hb) h2
          · exact absurd (Or.inr hb) h2
          · exact hb
        exact ⟨_, by rw [if_pos h3]⟩

/-- Witness for the amended C6 at the concrete invalid configuration. -/
theorem late_config_errors_raised_after_generation0_witness :
    (check_settings cfgInvalidCrossover = .ok () ∧
      cfgInvalidCrossover.user_request_stop = false ∧
      1 < cfgInvalidCrossover.crossover_fraction) ∧
    (solve_init_pushes cfgInvalidCrossover = .ok 1 ∧
      ∃ msg, crossover_and_mutation_check cfgInvalidCrossover 1 = .error msg) :=
  ⟨⟨rfl, rfl, by norm_num [cfgInvalidCrossover]⟩,
    late_config_errors_raised_after_generation0 cfgInvalidCrossover rfl rfl
      (Or.inr (Or.inl (by norm_num [cfgInvalidCrossover])))⟩

/-! ### The duplicate-selection bug of `select_population_SO` -/

/-- C3 failing run: a ranked generation of two chromosomes with
`sorted_indices = [1, 0]` (chromosome 1 is the cheaper one, so its
cumulative selection chance table is about `[0.414, 1]`, here `[2/5, 1]`),
no elites, `population = 2`, and the two draws `0.3, 0.3`.  Both draws
select chromosome 0, because after the first acceptance the source blocks
`sorted_indices[0] = 1` instead of the selected chromosome 0, so the
selected generation holds the same chromosome twice. -/
theorem select_population_SO_duplicate_selection :
    select_population_SO [1, 0] [2 / 5, 1] 2 0 2 [3 / 10, 3 / 10] = some [0, 0] ∧
    ¬ ([0, 0] : List ℕ).Nodup := by
  refine ⟨?_, by decide⟩
  norm_num [select_population_SO, sample_loop, sample_one, select_parent,
    select_parent_loop]

/-! ### Reading and swapping positions of an index list -/

/-- Swapping preserves the length. -/
lemma length_listSwap (l : List ℕ) (i j : ℕ) :
    (listSwap l i j).length = l.length := by
  simp [listSwap, List.length_set]

/-- The first swapped position now holds the other value. -/
lemma getD_listSwap_fst (l : List ℕ) (i j : ℕ) (hi : i < l.length) :
    (listSwap l i j).getD i 0 = l.getD j 0 := by
  unfold listSwap
  by_cases hij : i = j
  · subst hij
    rw [getD_set_eq _ _ _ _ (by rw [List.length_set]; exact hi)]
  · rw [getD_set_ne _ _ _ _ _ (fun h => hij h.symm), getD_set_eq _ _ _ _ hi]

/-- The second swapped position now holds the first value. -/
lemma getD_listSwap_snd (l : List ℕ) (i j : ℕ) (hj : j < l.length) :
    (listSwap l i j).getD j 0 = l.getD i 0 := by
  unfold listSwap
  rw [getD_set_eq _ _ _ _ (by rw [List.length_set]; exact hj)]

/-- Positions away from both swapped ones are untouched. -/
lemma getD_listSwap_other (l : List ℕ) (i j k : ℕ) (hki : k ≠ i) (hkj : k ≠ j) :
    (listSwap l i j).getD k 0 = l.getD k 0 := by
  unfold listSwap
  rw [getD_set_ne _ _ _ _ _ (fun h => hkj h.symm), getD_set_ne _ _ _ _ _ (fun h => hki h.symm)]

/-- Writing back the value already stored is the identity. -/
lemma set_getD_self (l : List ℕ) : ∀ i : ℕ, i < l.length → l.set i (l.getD i 0) = l := by
  induction l with
  | nil => intro i hi; exact absurd hi (Nat.not_lt_zero i)
  | cons b t ih =>
    intro i hi
    cases i with
    | zero => rfl
    | succ m =>
      have : (b :: t).set (m + 1) ((b :: t).getD (m + 1) 0) = b :: t.set m (t.getD m 0) := by
        simp [List.set]
      rw [this, ih m (by simpa using hi)]

/-- Moving the value of position `k` to the head while writing `a` at `k`
is a permutation of pushing `a` on top. -/
lemma cons_set_perm (a : ℕ) : ∀ (t : List ℕ) (k : ℕ), k < t.length →
    (t.getD k 0 :: t.set k a).Perm (a :: t) := by
  intro t
  induction t with
  | nil => intro k hk; exact absurd hk (Nat.not_lt_zero k)
  | cons b t' ih =>
    intro k hk
    cases k with
    | zero => exact List.Perm.swap a b t'
    | succ m =>
      have hm : m < t'.length := by simpa using hk
      have hstep : ((b :: t').getD (m + 1) 0 :: (b :: t').set (m + 1) a)
          = t'.getD m 0 :: b :: t'.set m a := by simp [List.set]
      rw [hstep]
      have h1 : (t'.getD m 0 :: b :: t'.set m a).Perm (b :: t'.getD m 0 :: t'.set m a) :=
        List.Perm.swap b (t'.getD m 0) _
      have h2 : (b :: t'.getD m 0 :: t'.set m a).Perm (b :: a :: t') :=
        (List.perm_cons b).mpr (ih m hm)
      exact h1.trans (h2.trans (List.Perm.swap a b t'))

/-- Swapping two in-range positions is a permutation. -/
lemma listSwap_perm : ∀ (l : List ℕ) (i j : ℕ), i < l.length → j < l.length →
    (listSwap l i j).Perm l := by
  intro l
  induction l with
  | nil => intro i j hi _; exact absurd hi (Nat.not_lt_zero i)
  | cons b t ih =>
    intro i j hi hj
    by_cases hij : i = j
    · subst hij
      unfold listSwap
      rw [List.set_set, set_getD_self _ i hi]
    · cases i with
      | zero =>
        cases j with
        | zero => exact absurd rfl hij
        | succ m =>
          have hm : m < t.length := by simpa using hj
          have hstep : listSwap (b :: t) 0 (m + 1) = t.getD m 0 :: t.set m b := by
            simp [listSwap, List.set]
          rw [hstep]
          exact cons_set_perm b t m hm
      | succ n =>
        cases j with
        | zero =>
          have hn : n < t.length := by simpa using hi
          have hstep : listSwap (b :: t) (n + 1) 0 = t.getD n 0 :: t.set n b := by
            simp [listSwap, List.set]
          rw [hstep]
          exact cons_set_perm b t n hn
        | succ m =>
          have hstep : listSwap (b :: t) (n + 1) (m + 1) = b :: listSwap t n m := by
            simp [listSwap, List.set]
          rw [hstep]
          exact (List.perm_cons b).mpr
            (ih n m (by simpa using hi) (by simpa using hj))

/-! ### Region values under a permutation that fixes everything outside -/

/-- If `B` is a permutation of `A` that agrees with `A` pointwise outside
the position range `[lo, hi]`, then every value of `B` inside the range is
a value of `A` inside the range. -/
lemma region_values_transport (A B : List ℕ) (lo hi : ℕ)
    (hlen : B.length = A.length) (hperm : B.Perm A)
    (hlow : ∀ k, k < lo → B.getD k 0 = A.getD k 0)
    (hhigh : ∀ k, hi < k → B.getD k 0 = A.getD k 0)
    (hhi : hi < A.length) (hlohi : lo ≤ hi) :
    ∀ k, lo ≤ k → k ≤ hi → ∃ k2, lo ≤ k2 ∧ k2 ≤ hi ∧ B.getD k 0 = A.getD k2 0 := by
  have htake : B.take lo = A.take lo := by
    refine List.ext_getElem (by rw [List.length_take, List.length_take, hlen]) ?_
    intro n h1 h2
    rw [List.getElem_take, List.getElem_take]
    have hnlo : n < lo := by
      have := h1; rw [List.length_take] at this; omega
    have hnB : n < B.length := by
      have := h1; rw [List.length_take] at this; omega
    have hnA : n < A.length := by omega
    rw [← List.getD_eq_getElem B 0 hnB, ← List.getD_eq_getElem A 0 hnA]
    exact hlow n hnlo
  have hdrop : B.drop (hi + 1) = A.drop (hi + 1) := by
    refine List.ext_getElem (by rw [List.length_drop, List.length_drop, hlen]) ?_
    intro n h1 h2
    rw [List.getElem_drop, List.getElem_drop]
    have hnB : hi + 1 + n < B.length := by
      have := h1; rw [List.length_drop] at this; omega
    have hnA : hi + 1 + n < A.length := by omega
    rw [← List.getD_eq_getElem B 0 hnB, ← List.getD_eq_getElem A 0 hnA]
    exact hhigh (hi + 1 + n) (by omega)
  have hmidperm : ((B.drop lo).take (hi + 1 - lo)).Perm ((A.drop lo).take (hi + 1 - lo)) := by
    have hsplit : ∀ L : List ℕ, L = L.take lo ++ ((L.drop lo).take (hi + 1 - lo)
        ++ (L.drop lo).drop (hi + 1 - lo)) := by
      intro L
      rw [List.take_append_drop, List.take_append_drop]
    have hBsplit := hsplit B
    have hAsplit := hsplit A
    have hperm2 : (B.take lo ++ ((B.drop lo).take (hi + 1 - lo)
        ++ (B.drop lo).drop (hi + 1 - lo))).Perm
        (A.take lo ++ ((A.drop lo).take (hi + 1 - lo)
        ++ (A.drop lo).drop (hi + 1 - lo))) := by
      rw [← hBsplit, ← hAsplit]; exact hperm
    rw [htake] at hperm2
    rw [List.perm_append_left_iff] at hperm2
    have hBdd : (B.drop lo).drop (hi + 1 - lo) = B.drop (hi + 1) := by
      rw [List.drop_drop]
      congr 1
      omega
    have hAdd : (A.drop lo).drop (hi + 1 - lo) = A.drop (hi + 1) := by
      rw [List.drop_drop]
      congr 1
      omega
    rw [hBdd, hAdd, hdrop] at hperm2
    rwa [List.perm_append_right_iff] at hperm2
  intro k hk1 hk2
  have hkB : k < B.length := by omega
  have hmem : B.getD k 0 ∈ (B.drop lo).take (hi + 1 - lo) := by
    have hlt : k - lo < ((B.drop lo).take (hi + 1 - lo)).length := by
      rw [List.length_take, List.length_drop]
      omega
    have : ((B.drop lo).take (hi + 1 - lo))[k - lo] = B.getD k 0 := by
      rw [List.getElem_take, List.getElem_drop, ← List.getD_eq_getElem B 0]
      congr 1
      omega
    rw [← this]
    exact List.getElem_mem hlt
  have hmemA : B.getD k 0 ∈ (A.drop lo).take (hi + 1 - lo) := hmidperm.mem_iff.mp hmem
  rw [List.mem_iff_getElem] at hmemA
  obtain ⟨n, hn, hval⟩ := hmemA
  have hnlen : n < hi + 1 - lo := by
    have := hn; rw [List.length_take] at this; omega
  have hnA : lo + n < A.length := by omega
  refine ⟨lo + n, by omega, by omega, ?_⟩
  rw [← hval, List.getElem_take, List.getElem_drop, ← List.getD_eq_getElem A 0 hnA]

/-! ### The partition scans -/

/-- Behaviour of the left scan: it stops at or before `right`, every passed
position carries cost at most the pivot, and it stops either at `right` or
on a cost above the pivot.  It moves at least one step whenever the scanned
position qualifies. -/
lemma incrL_spec (c : ℕ → ℚ) (idx : List ℕ) (x : ℚ) (right : ℕ) :
    ∀ (n l : ℕ), right - l ≤ n → l ≤ right →
      l ≤ incrL c idx x right l ∧ incrL c idx x right l ≤ right ∧
      (∀ k, l ≤ k → k < incrL c idx x right l → c (idx.getD k 0) ≤ x) ∧
      (incrL c idx x right l = right ∨ x < c (idx.getD (incrL c idx x right l) 0)) ∧
      (c (idx.getD l 0) ≤ x ∧ l < right → l + 1 ≤ incrL c idx x right l) := by
  intro n
  induction n with
  | zero =>
    intro l h1 h2
    have hl : l = right := by omega
    rw [incrL, dif_neg (by rintro ⟨-, hlt⟩; omega)]
    exact ⟨le_refl l, h2, fun k hk1 hk2 => by omega, Or.inl hl,
      fun hc => absurd hc.2 (by omega)⟩
  | succ m ih =>
    intro l h1 h2
    rw [incrL]
    by_cases hcond : c (idx.getD l 0) ≤ x ∧ l < right
    · rw [dif_pos hcond]
      obtain ⟨i1, i2, i3, i4, -⟩ := ih (l + 1) (by omega) (by omega)
      refine ⟨by omega, i2, ?_, i4, fun _ => i1⟩
      intro k hk1 hk2
      rcases eq_or_lt_of_le hk1 with rfl | hk
      · exact hcond.1
      · exact i3 k (by omega) hk2
    · rw [dif_neg hcond]
      refine ⟨le_refl l, h2, fun k hk1 hk2 => by omega, ?_, fun hc => absurd hc hcond⟩
      rcases Nat.lt_or_ge l right with hlr | hlr
      · refine Or.inr ?_
        by_contra hle
        exact hcond ⟨le_of_not_lt hle, hlr⟩
      · exact Or.inl (by omega)

/-- Behaviour of the right scan, assuming the pivot position `left` carries
cost at most the pivot: the scan never passes `left`, every passed position
carries cost above the pivot, and the stop position carries cost at most
the pivot. -/
lemma decrR_spec (c : ℕ → ℚ) (idx : List ℕ) (x : ℚ) (left : ℕ)
    (hpl : c (idx.getD left 0) ≤ x) :
    ∀ r : ℕ, left ≤ r →
      left ≤ decrR c idx x left r ∧ decrR c idx x left r ≤ r ∧
      (∀ k, decrR c idx x left r < k → k ≤ r → x < c (idx.getD k 0)) ∧
      c (idx.getD (decrR c idx x left r) 0) ≤ x := by
  intro r
  induction r with
  | zero =>
    intro hlef
    have hl0 : left = 0 := by omega
    have hz : decrR c idx x left 0 = 0 := rfl
    rw [hz]
    subst hl0
    exact ⟨le_refl 0, le_refl 0, fun k hk1 hk2 => by omega, hpl⟩
  | succ m ih =>
    intro hlef
    have hstep : decrR c idx x left (m + 1)
        = if x < c (idx.getD (m + 1) 0) ∧ left ≤ m + 1 then decrR c idx x left m
          else m + 1 := rfl
    rw [hstep]
    by_cases hcond : x < c (idx.getD (m + 1) 0) ∧ left ≤ m + 1
    · rcases Nat.lt_or_ge m left with hlm | hlm
      · exfalso
        have hleq : left = m + 1 := by omega
        rw [hleq] at hpl
        exact absurd hcond.1 (not_lt.mpr hpl)
      · rw [if_pos hcond]
        obtain ⟨j1, j2, j3, j4⟩ := ih hlm
        refine ⟨j1, by omega, ?_, j4⟩
        intro k hk1 hk2
        rcases eq_or_lt_of_le hk2 with rfl | hk
        · exact hcond.1
        · exact j3 k hk1 (by omega)
    · rw [if_neg hcond]
      refine ⟨hlef, le_refl _, fun k hk1 hk2 => by omega, ?_⟩
      by_contra hgt
      exact hcond ⟨lt_of_not_le hgt, hlef⟩

/-! ### The partition loop -/

/-- Correctness of the partition loop.  Starting inside `[left, right]`
with the already-scanned outer regions respecting the pivot `x` stored at
position `left`, the loop returns a split point `m ∈ [left, r]` and a
permutation of the array that is untouched at and below `left` and above
`right`, with all costs below `m` at most `x`, all costs above `m` (up to
`right`) above `x`, and the cost at `m` at most `x`. -/
lemma partLoop_spec (c : ℕ → ℚ) (x : ℚ) (left right : ℕ) :
    ∀ (fuel l r : ℕ) (idx : List ℕ),
      l < r → left ≤ l → r ≤ right → right < idx.length →
      (∀ k, left ≤ k → k < l → c (idx.getD k 0) ≤ x) →
      (∀ k, r < k → k ≤ right → x < c (idx.getD k 0)) →
      c (idx.getD left 0) = x →
      2 * (r - l) + (if c (idx.getD l 0) ≤ x then 0 else 1) < fuel →
      left ≤ (partLoop c x left right fuel l r idx).1 ∧
      (partLoop c x left right fuel l r idx).1 ≤ r ∧
      (partLoop c x left right fuel l r idx).2.length = idx.length ∧
      (partLoop c x left right fuel l r idx).2.Perm idx ∧
      (∀ k, k ≤ left →
        (partLoop c x left right fuel l r idx).2.getD k 0 = idx.getD k 0) ∧
      (∀ k, right < k →
        (partLoop c x left right fuel l r idx).2.getD k 0 = idx.getD k 0) ∧
      (∀ k, left ≤ k → k < (partLoop c x left right fuel l r idx).1 →
        c ((partLoop c x left right fuel l r idx).2.getD k 0) ≤ x) ∧
      (∀ k, (partLoop c x left right fuel l r idx).1 < k → k ≤ right →
        x < c ((partLoop c x left right fuel l r idx).2.getD k 0)) ∧
      c ((partLoop c x left right fuel l r idx).2.getD
        (partLoop c x left right fuel l r idx).1 0) ≤ x := by
  intro fuel
  induction fuel with
  | zero =>
    intro l r idx _ _ _ _ _ _ _ hfuel
    omega
  | succ f ih =>
    intro l r idx hlr hll hrr hlen hleft hright hpivot hfuel
    have hstep : partLoop c x left right (f + 1) l r idx
        = if l < r then
            (if incrL c idx x right l < decrR c idx x left r then
              partLoop c x left right f (incrL c idx x right l) (decrR c idx x left r)
                (listSwap idx (incrL c idx x right l) (decrR c idx x left r))
            else (decrR c idx x left r, idx))
          else (r, idx) := rfl
    rw [hstep, if_pos hlr]
    obtain ⟨a1, a2, a3, a4, a5⟩ :=
      incrL_spec c idx x right (right - l) l (le_refl _) (by omega)
    obtain ⟨b1, b2, b3, b4⟩ :=
      decrR_spec c idx x left (le_of_eq hpivot) r (by omega)
    by_cases hlt2 : incrL c idx x right l < decrR c idx x left r
    · rw [if_pos hlt2]
      set l2 := incrL c idx x right l with hl2def
      set r2 := decrR c idx x left r with hr2def
      have hl2r : left < l2 := by
        rcases eq_or_lt_of_le hll with heq | hstrict
        · have hpl : c (idx.getD l 0) ≤ x := le_of_eq (heq ▸ hpivot)
          have : l + 1 ≤ l2 := a5 ⟨hpl, by omega⟩
          omega
        · omega
      have hl2len : l2 < idx.length := by omega
      have hr2len : r2 < idx.length := by omega
      have hswlen : (listSwap idx l2 r2).length = idx.length := length_listSwap idx l2 r2
      have hswl2 : (listSwap idx l2 r2).getD l2 0 = idx.getD r2 0 :=
        getD_listSwap_fst idx l2 r2 hl2len
      have hswr2 : (listSwap idx l2 r2).getD r2 0 = idx.getD l2 0 :=
        getD_listSwap_snd idx l2 r2 hr2len
      have hswother : ∀ k, k ≠ l2 → k ≠ r2 →
          (listSwap idx l2 r2).getD k 0 = idx.getD k 0 :=
        fun k h1 h2 => getD_listSwap_other idx l2 r2 k h1 h2
      have hfuel2 : 2 * (r2 - l2)
          + (if c ((listSwap idx l2 r2).getD l2 0) ≤ x then 0 else 1) < f := by
        rw [hswl2, if_pos b4]
        by_cases hcl : c (idx.getD l 0) ≤ x
        · rw [if_pos hcl] at hfuel
          have hmove : l + 1 ≤ l2 := a5 ⟨hcl, by omega⟩
          omega
        · rw [if_neg hcl] at hfuel
          omega
      obtain ⟨c1, c2, c3, c4, c5, c6, c7, c8, c9⟩ := ih l2 r2 (listSwap idx l2 r2)
        hlt2 (by omega) (by omega) (by omega)
        (by
          intro k hk1 hk2
          rw [hswother k (by omega) (by omega)]
          rcases Nat.lt_or_ge k l with hkl | hkl
          · exact hleft k hk1 hkl
          · exact a3 k hkl hk2)
        (by
          intro k hk1 hk2
          rw [hswother k (by omega) (by omega)]
          rcases le_or_lt k r with hkr | hkr
          · exact b3 k hk1 hkr
          · exact hright k hkr hk2)
        (by rw [hswother left (by omega) (by omega)]; exact hpivot)
        hfuel2
      refine ⟨c1, by omega, by rw [c3, hswlen], c4.trans (listSwap_perm idx l2 r2 hl2len hr2len),
        ?_, ?_, c7, c8, c9⟩
      · intro k hk
        rw [c5 k hk, hswother k (by omega) (by omega)]
      · intro k hk
        rw [c6 k hk, hswother k (by omega) (by omega)]
    · rw [if_neg hlt2]
      refine ⟨b1, b2, rfl, List.Perm.refl idx, fun k _ => rfl, fun k _ => rfl, ?_, ?_, b4⟩
      · intro k hk1 hk2
        rcases Nat.lt_or_ge k l with hkl | hkl
        · exact hleft k hk1 hkl
        · exact a3 k hkl (by omega)
      · intro k hk1 hk2
        rcases le_or_lt k r with hkr | hkr
        · exact b3 k hk1 hkr
        · exact hright k hkr hk2

/-! ### Correctness of the hand-written quicksort -/

/-- An empty range is left untouched, whatever the fuel. -/
lemma quicksort_fuel_no_op (c : ℕ → ℚ) (fuel : ℕ) (idx : List ℕ) (left right : ℕ)
    (h : ¬ left < right) : quicksort_indices_SO_fuel c fuel idx left right = idx := by
  cases fuel with
  | zero => rfl
  | succ f =>
    rw [quicksort_indices_SO_fuel]
    rw [if_neg h]

/-- One unfolding of the quicksort body on a non-empty range. -/
lemma quicksort_fuel_succ (c : ℕ → ℚ) (f : ℕ) (idx : List ℕ) (left right : ℕ)
    (h : left < right) :
    quicksort_indices_SO_fuel c (f + 1) idx left right
      = quicksort_indices_SO_fuel c f
          (quicksort_indices_SO_fuel c f
            (listSwap (partLoop c (c (idx.getD left 0)) left right (2 * right + 2)
                left right idx).2
              left
              (partLoop c (c (idx.getD left 0)) left right (2 * right + 2)
                left right idx).1)
            left
            ((partLoop c (c (idx.getD left 0)) left right (2 * right + 2)
              left right idx).1 - 1))
          ((partLoop c (c (idx.getD left 0)) left right (2 * right + 2)
            left right idx).1 + 1)
          right := by
  rw [quicksort_indices_SO_fuel]
  rw [if_pos h]

/-- Correctness of the quicksort on index lists: given enough fuel for the
range, the result is a permutation of the input that is untouched outside
`[left, right]` and cost-sorted inside it. -/
lemma quicksort_fuel_spec (c : ℕ → ℚ) :
    ∀ (fuel : ℕ) (idx : List ℕ) (left right : ℕ),
      right - left < fuel →
      (left < right → right < idx.length) →
      (quicksort_indices_SO_fuel c fuel idx left right).length = idx.length ∧
      (quicksort_indices_SO_fuel c fuel idx left right).Perm idx ∧
      (∀ k, k < left →
        (quicksort_indices_SO_fuel c fuel idx left right).getD k 0 = idx.getD k 0) ∧
      (∀ k, right < k →
        (quicksort_indices_SO_fuel c fuel idx left right).getD k 0 = idx.getD k 0) ∧
      SortedRange c (quicksort_indices_SO_fuel c fuel idx left right) left right := by
  intro fuel
  induction fuel with
  | zero =>
    intro idx left right hfuel _
    omega
  | succ f ih =>
    intro idx left right hfuel hlen
    by_cases hlr : left < right
    · have hrlen : right < idx.length := hlen hlr
      rw [quicksort_fuel_succ c f idx left right hlr]
      obtain ⟨p1, p2, p3, p4, p5, p6, p7, p8, p9⟩ :=
        partLoop_spec c (c (idx.getD left 0)) left right (2 * right + 2) left right idx
          hlr (le_refl _) (le_refl _) hrlen
          (fun k hk1 hk2 => absurd hk2 (by omega))
          (fun k hk1 hk2 => absurd hk1 (by omega))
          rfl
          (by rw [if_pos (le_refl _)]; omega)
      set m := (partLoop c (c (idx.getD left 0)) left right (2 * right + 2)
        left right idx).1 with hmdef
      set A := (partLoop c (c (idx.getD left 0)) left right (2 * right + 2)
        left right idx).2 with hAdef
      set x := c (idx.getD left 0) with hxdef
      have hmA : m < A.length := by omega
      have hlA : left < A.length := by omega
      have hlenB : (listSwap A left m).length = idx.length := by
        rw [length_listSwap, p3]
      have hBperm : (listSwap A left m).Perm idx :=
        (listSwap_perm A left m hlA hmA).trans p4
      have hBlow : ∀ k, k < left → (listSwap A left m).getD k 0 = idx.getD k 0 := by
        intro k hk
        rw [getD_listSwap_other A left m k (by omega) (by omega)]
        exact p5 k (by omega)
      have hBhigh : ∀ k, right < k → (listSwap A left m).getD k 0 = idx.getD k 0 := by
        intro k hk
        rw [getD_listSwap_other A left m k (by omega) (by omega)]
        exact p6 k hk
      have hBm : c ((listSwap A left m).getD m 0) = x := by
        rw [getD_listSwap_snd A left m hmA, p5 left (le_refl left)]
      have hBleft_val : ∀ k, left ≤ k → k < m → c ((listSwap A left m).getD k 0) ≤ x := by
        intro k hk1 hk2
        rcases eq_or_lt_of_le hk1 with heq | hstrict
        · rw [← heq, getD_listSwap_fst A left m hlA]
          exact p9
        · rw [getD_listSwap_other A left m k (by omega) (by omega)]
          exact p7 k hk1 hk2
      have hBright_val : ∀ k, m < k → k ≤ right →
          x < c ((listSwap A left m).getD k 0) := by
        intro k hk1 hk2
        rw [getD_listSwap_other A left m k (by omega) (by omega)]
        exact p8 k hk1 hk2
      obtain ⟨q1, q2, q3, q4, q5⟩ := ih (listSwap A left m) left (m - 1)
        (by omega) (by intro h2; rw [hlenB]; omega)
      set out1 := quicksort_indices_SO_fuel c f (listSwap A left m) left (m - 1)
        with hout1def
      have hkeep1 : ∀ k, m ≤ k → out1.getD k 0 = (listSwap A left m).getD k 0 := by
        intro k hk
        rcases Nat.eq_zero_or_pos m with hm0 | hmpos
        · rw [hout1def, quicksort_fuel_no_op c f (listSwap A left m) left (m - 1)
            (by omega)]
        · exact q4 k (by omega)
      have hout1_left_val : ∀ k, left ≤ k → k < m → c (out1.getD k 0) ≤ x := by
        intro k hk1 hk2
        obtain ⟨k2, hk2a, hk2b, heq⟩ := region_values_transport (listSwap A left m)
          out1 left (m - 1) q1 q2 q3 q4 (by rw [hlenB]; omega) (by omega) k hk1
          (by omega)
        rw [heq]
        exact hBleft_val k2 hk2a (by omega)
      have hout1_m : c (out1.getD m 0) = x := by
        rw [hkeep1 m (le_refl m)]
        exact hBm
      have hout1_right_val : ∀ k, m < k → k ≤ right → x < c (out1.getD k 0) := by
        intro k hk1 hk2
        rw [hkeep1 k (by omega)]
        exact hBright_val k hk1 hk2
      obtain ⟨s1, s2, s3, s4, s5⟩ := ih out1 (m + 1) right (by omega)
        (by intro h2; rw [q1, hlenB]; omega)
      set out := quicksort_indices_SO_fuel c f out1 (m + 1) right with houtdef
      have hout_le : ∀ k, left ≤ k → k < m → c (out.getD k 0) ≤ x := by
        intro k hk1 hk2
        rw [s3 k (by omega)]
        exact hout1_left_val k hk1 hk2
      have hout_m : c (out.getD m 0) = x := by
        rw [s3 m (by omega)]
        exact hout1_m
      have hout_gt : ∀ k, m < k → k ≤ right → x < c (out.getD k 0) := by
        intro k hk1 hk2
        obtain ⟨k2, hk2a, hk2b, heq⟩ := region_values_transport out1 out (m + 1) right
          s1 s2 s3 s4 (by rw [q1, hlenB]; omega) (by omega) k (by omega) hk2
        rw [heq]
        exact hout1_right_val k2 (by omega) hk2b
      refine ⟨?_, ?_, ?_, ?_, ?_⟩
      · rw [s1, q1, hlenB]
      · exact s2.trans (q2.trans hBperm)
      · intro k hk
        rw [s3 k (by omega), q3 k hk, hBlow k hk]
      · intro k hk
        rw [s4 k hk, q4 k (by omega), hBhigh k hk]
      · intro i j h1 h2 h3
        rcases lt_trichotomy j m with hjm | hjm | hjm
        · rw [s3 i (by omega), s3 j (by omega)]
          exact q5 i j h1 h2 (by omega)
        · subst hjm
          rcases eq_or_lt_of_le h2 with heq | hlt
          · rw [heq]
          · rw [hout_m]
            exact hout_le i h1 hlt
        · rcases lt_trichotomy i m with him | him | him
          · exact le_trans (hout_le i h1 him) (le_of_lt (hout_gt j hjm h3))
          · rw [him, hout_m]
            exact le_of_lt (hout_gt j hjm h3)
          · exact s5 i j (by omega) h2 h3
    · rw [quicksort_fuel_no_op c (f + 1) idx left right hlr]
      refine ⟨rfl, List.Perm.refl idx, fun k _ => rfl, fun k _ => rfl, ?_⟩
      intro i j h1 h2 h3
      have : i = j := by omega
      rw [this]

/-- C8: for any chromosome count and any total costs, the
`sorted_indices` built by `rank_population_SO` are a permutation of
`0, ..., N-1` along which `total_cost` is non-decreasing — under the
hand-written quicksort path (`use_quick_sort = true`) as well as under the
library-sort path (`use_quick_sort = false`). -/
theorem rank_population_SO_sorted_indices_spec (use_quick_sort : Bool)
    (c : ℕ → ℚ) (N : ℕ) :
    (rank_population_SO_sorted_indices use_quick_sort c N).Perm (List.range N) ∧
    List.Pairwise (fun a b => c a ≤ c b)
      (rank_population_SO_sorted_indices use_quick_sort c N) := by
  cases use_quick_sort with
  | false =>
    have hdef : rank_population_SO_sorted_indices false c N
        = (List.range N).mergeSort (fun a b => decide (c a ≤ c b)) := rfl
    rw [hdef]
    constructor
    · exact List.mergeSort_perm (List.range N) _
    · have hs := @List.sorted_mergeSort ℕ (fun a b : ℕ => decide (c a ≤ c b))
        (fun a b d h1 h2 => by
          rw [decide_eq_true_eq] at h1 h2 ⊢
          exact le_trans h1 h2)
        (fun a b => by
          rcases le_total (c a) (c b) with h | h <;> simp [h])
        (List.range N)
      exact hs.imp (fun h => of_decide_eq_true h)
  | true =>
    have hdef : rank_population_SO_sorted_indices true c N
        = quicksort_indices_SO_fuel c (N - 1 + 1 - 0) (List.range N) 0 (N - 1) := rfl
    rw [hdef]
    obtain ⟨t1, t2, t3, t4, t5⟩ := quicksort_fuel_spec c (N - 1 + 1 - 0)
      (List.range N) 0 (N - 1) (by omega)
      (by intro h; rw [List.length_range]; omega)
    refine ⟨t2, ?_⟩
    rw [List.pairwise_iff_getElem]
    intro i j hi hj hij
    have hlenN : (quicksort_indices_SO_fuel c (N - 1 + 1 - 0)
        (List.range N) 0 (N - 1)).length = N := by
      rw [t1, List.length_range]
    rw [← List.getD_eq_getElem _ 0 hi, ← List.getD_eq_getElem _ 0 hj]
    exact t5 i j (Nat.zero_le i) (le_of_lt hij) (by omega)

/-! ### The niching-pick bug of `select_population_MO` -/

/-- C5 failing run: remaining members `C = [1, 0]` of the last front are
associated with an empty reference vector `j*`, chromosome 0 at distance 1
and chromosome 1 at distance 2.  The minimum-distance member is chromosome
0, but the scan stores the winning chromosome index into
`next_member_index` and the source then reads
`min_vec_neighbors[next_member_index]`, adding chromosome 1 instead. -/
theorem niche_pick_not_min_distance_member :
    niche_next_member exampleNicheDist [1, 0] = 1 ∧
    claimed_min_distance_member exampleNicheDist [1, 0] = 0 ∧
    exampleNicheDist 0 < exampleNicheDist 1 ∧
    niche_next_member exampleNicheDist [1, 0]
      ≠ claimed_min_distance_member exampleNicheDist [1, 0] := by
  norm_num [niche_next_member, niche_minimum_scan, claimed_min_distance_member,
    exampleNicheDist]

end EA
